import Mathlib

/-!
Verification of the zktools distributed-locking specification.

The repository ships `src/zktools/tests/test_locking.py` and `setup.py`; the
implementation module `zktools/locking.py` itself is not present under `src/`.
Every definition below that embeds behaviour of that missing module is
therefore modelled from the specification (`spec.md`), and is marked
`Modelled from the spec:` in its doc comment.
-/

namespace Zktools

/-- Modelled from the spec: the candidate-node naming convention of the
missing `zktools/locking.py`.  A candidate node's name prefix encodes the
lock kind: `lock-<seq>` for an exclusive lock, `write-<seq>` for a write
lock, `read-<seq>` for a read lock. -/
inductive Kind
  | read
  | write
  | excl
  deriving DecidableEq

/-- A write or exclusive candidate: the kinds whose presence conflicts with
every other candidate. -/
def Kind.isWrite : Kind → Bool
  | .read => false
  | .write => true
  | .excl => true

/-- Modelled from the spec: the per-candidate data of the missing
`zktools/locking.py` lock objects.  `cid` identifies the owning lock object,
`seq` is the service-assigned sequence number, `acquired` and `revoked` are
the lock-instance state flags of §3 of the spec. -/
structure Cand where
  cid : Nat
  kind : Kind
  seq : Nat
  acquired : Bool
  revoked : Bool
  deriving DecidableEq

/-- Modelled from the spec: which sibling kinds block a candidate of kind
`k` (spec §4.2 step 4).  An exclusive or write candidate is blocked by any
sibling regardless of its name; a read candidate is blocked only by
write/exclusive siblings. -/
def blocksKind (k : Kind) (s : Kind) : Bool :=
  match k with
  | .read => s.isWrite
  | .write => true
  | .excl => true

/-- The sibling with the greatest sequence number, if any. -/
def maxBySeq : List Cand → Option Cand
  | [] => none
  | c :: rest =>
    match maxBySeq rest with
    | none => some c
    | some b => if b.seq < c.seq then some c else some b

/-- The siblings that block a candidate of kind `k` with sequence `n`:
those whose kind conflicts and whose sequence is strictly smaller. -/
def blockers (k : Kind) (n : Nat) (sibs : List Cand) : List Cand :=
  sibs.filter (fun s => blocksKind k s.kind && decide (s.seq < n))

/-- Modelled from the spec: the blocking-predecessor computation of the
missing `zktools/locking.py` (spec §4.2 step 4).  For an exclusive or write
candidate it is the sibling with the highest sequence strictly less than
ours, regardless of name; for a read candidate, the write/exclusive
sibling with the highest sequence strictly less than ours. -/
def blocking_predecessor (k : Kind) (n : Nat) (sibs : List Cand) : Option Cand :=
  maxBySeq (blockers k n sibs)

/-- Modelled from the spec: the error codes recognized by the missing
`zktools/locking.py` (spec §6). -/
inductive ZkErr
  | nodeExists
  | noNode
  | connectionLoss
  | sessionExpired
  | operationTimeout
  | sessionMoved
  deriving DecidableEq

/-- Modelled from the spec: the helper `retryable(err)` of the missing
`zktools/locking.py`, classifying the retryable transport error kinds
connection-loss, operation-timeout and session-moved (spec §4.2). -/
def retryable : ZkErr → Bool
  | .connectionLoss => true
  | .operationTimeout => true
  | .sessionMoved => true
  | _ => false

/-- Modelled from the spec: the two revocation urgency levels of the missing
`zktools/locking.py` (`True` means gentle, `IMMEDIATE` the sentinel payload;
spec §4.4 and design note on `RevokeMode`). -/
inductive RevokeMode
  | gentle
  | immediate
  deriving DecidableEq

/-- Modelled from the spec: the shared state of all lock objects contending
on one lock name, as maintained by the coordination service for the missing
`zktools/locking.py`: the list of live candidate nodes under the lock
parent, the next sequence number the service will assign (monotonically
increasing, spec §3), and the persistent revocation flag node (`none` when
absent). -/
structure LockState where
  cands : List Cand
  nextSeq : Nat
  flag : Option RevokeMode
  deriving DecidableEq

/-- The state of a freshly created lock parent: no candidates, no flag. -/
def initState : LockState := ⟨[], 0, none⟩

/-- Modelled from the spec: the protocol operations of the missing
`zktools/locking.py` that touch the shared state (spec §4.2 candidate
lifecycle, §4.3 `revoke_all`, §4.4 `revoke=IMMEDIATE`, §4.6 revocation
protocol). -/
inductive Op
  | create (cid : Nat) (k : Kind)
  | tryAcquire (cid : Nat)
  | release (cid : Nat)
  | revokeAll
  | revokeImmediate (cid : Nat)
  | observeFlag (cid : Nat)
  deriving DecidableEq

/-- Modelled from the spec: one protocol step of the missing
`zktools/locking.py`, returning `none` when the operation is not enabled.
`create` makes a fresh ephemeral-sequenced candidate (one per lock object);
`tryAcquire` sets `acquired` when the blocking-predecessor computation of
spec §4.2 step 4 finds none (checking the revocation flag at acquisition
time, spec §4.6); `release` deletes the caller's own candidate node;
`revokeAll` writes the gentle revocation flag (spec §4.3); `revokeImmediate`
writes the immediate flag and deletes each blocking predecessor's candidate
node (spec §4.3/§4.6); `observeFlag` models the holder's flag watch firing
(spec §4.6). -/
def step (σ : LockState) : Op → Option LockState
  | .create cid k =>
    if σ.cands.any (fun c => c.cid == cid) then none
    else some { σ with
      cands := σ.cands ++ [⟨cid, k, σ.nextSeq, false, false⟩],
      nextSeq := σ.nextSeq + 1 }
  | .tryAcquire cid =>
    match σ.cands.find? (fun c => c.cid == cid) with
    | none => none
    | some c =>
      if blocking_predecessor c.kind c.seq σ.cands = none then
        some { σ with cands := σ.cands.map (fun d =>
          if d.cid == cid then
            { d with acquired := true, revoked := d.revoked || σ.flag.isSome }
          else d) }
      else none
  | .release cid =>
    if σ.cands.any (fun c => c.cid == cid) then
      some { σ with cands := σ.cands.filter (fun c => !(c.cid == cid)) }
    else none
  | .revokeAll => some { σ with flag := some RevokeMode.gentle }
  | .revokeImmediate cid =>
    match σ.cands.find? (fun c => c.cid == cid) with
    | none => none
    | some c =>
      some { σ with
        flag := some RevokeMode.immediate,
        cands := σ.cands.filter
          (fun s => !(blocksKind c.kind s.kind && decide (s.seq < c.seq))) }
  | .observeFlag cid =>
    if σ.flag.isSome && σ.cands.any (fun c => c.cid == cid) then
      some { σ with cands := σ.cands.map (fun d =>
        if d.cid == cid then { d with revoked := true } else d) }
    else none

/-- Run a list of operations from a state; fails if any step is disabled. -/
def run (σ : LockState) : List Op → Option LockState
  | [] => some σ
  | op :: ops =>
    match step σ op with
    | none => none
    | some σ' => run σ' ops

/-- The states of the lock parent reachable from the fresh state by enabled
protocol steps. -/
inductive Reachable : LockState → Prop
  | init : Reachable initState
  | next {σ σ' : LockState} {op : Op} :
      Reachable σ → step σ op = some σ' → Reachable σ'

/-- All live candidates carry sequence numbers below the service counter. -/
def SeqBound (σ : LockState) : Prop := ∀ c ∈ σ.cands, c.seq < σ.nextSeq

/-- Sequence numbers of live candidates are pairwise distinct (spec §4.2:
sequence numbers are unique; no ties exist). -/
def SeqsNodup (σ : LockState) : Prop := (σ.cands.map Cand.seq).Nodup

/-- Each lock object owns at most one live candidate. -/
def CidsNodup (σ : LockState) : Prop := (σ.cands.map Cand.cid).Nodup

/-- An acquired candidate has no blocking sibling: no live sibling of a
conflicting kind with a strictly smaller sequence number. -/
def AcqSafe (σ : LockState) : Prop :=
  ∀ c ∈ σ.cands, c.acquired = true →
    ∀ s ∈ σ.cands, blocksKind c.kind s.kind = true → ¬ s.seq < c.seq

/-- The inductive invariant of the lock protocol. -/
def Inv (σ : LockState) : Prop := SeqBound σ ∧ SeqsNodup σ ∧ CidsNodup σ ∧ AcqSafe σ

/-- The identity of a candidate node in the coordination service: owner,
name kind and sequence number (the mutable `acquired`/`revoked` flags live
in the owner's process, not in the node). -/
def Cand.node (c : Cand) : Nat × Kind × Nat := (c.cid, c.kind, c.seq)

/-- The candidate nodes existing under the lock parent in a state. -/
def nodes (σ : LockState) : List (Nat × Kind × Nat) := σ.cands.map Cand.node

/-- Modelled from the spec: the synchronous `acquire(timeout=t)` wait loop
of the missing `zktools/locking.py` (spec §4.2 steps 3-7 and §4.3).
`listings t` is the sibling listing the caller observes at wake-up number
`t`; `budget` is the number of wait rounds the timeout allows, with budget
`0` for the non-blocking probe `timeout=0`.  Each round recomputes the
blocking predecessor; if none, the lock is acquired and the call returns
`.ok true`; once the budget is exhausted the attempt times out, the
candidate is deleted and the call returns `.ok false` - a timeout is never
surfaced as an error. -/
def acquireSync (listings : Nat → List Cand) (k : Kind) (n : Nat) :
    Nat → Nat → Except ZkErr Bool
  | t, 0 =>
    if blocking_predecessor k n (listings t) = none then Except.ok true
    else Except.ok false
  | t, b + 1 =>
    if blocking_predecessor k n (listings t) = none then Except.ok true
    else acquireSync listings k n (t + 1) b

/-- Modelled from the spec: the per-candidate states of the missing
`ZkAsyncLock` state machine of `zktools/locking.py` (spec §4.6). -/
inductive AState
  | idle
  | creating
  | waiting
  | held
  | cancelling
  | releasing
  | failed
  deriving DecidableEq

/-- Modelled from the spec: the observable attributes of the missing
`ZkAsyncLock` of `zktools/locking.py` together with its machine state
(spec §4.5): `candidate_created` is true once the ephemeral node creation
has returned, `acquired` once no blocking predecessor exists. -/
structure Async where
  st : AState
  candidate_created : Bool
  acquired : Bool
  revoked : Bool
  deriving DecidableEq

/-- A fresh `ZkAsyncLock`: idle, nothing created, nothing acquired. -/
def asyncInit : Async := ⟨AState.idle, false, false, false⟩

/-- Modelled from the spec: the events driving the missing `ZkAsyncLock`
state machine (spec §4.6): API calls (`acquireCall`, `releaseCall`) and
watch-dispatcher callbacks from the coordination client. -/
inductive AEvent
  | acquireCall
  | createOk
  | retryErr
  | fatalErr
  | predDeleted
  | noBlockingPred
  | timeout
  | sessionExpiry
  | releaseCall
  | revokeFire
  | deleteOk
  deriving DecidableEq

/-- Modelled from the spec: the transition table of the missing
`ZkAsyncLock` state machine (spec §4.6), plus `releaseCall` in the waiting
state, which cancels a still-pending acquisition attempt by deleting the
candidate (spec §4.5: `release()` initiates release and returns
immediately; exercised by `test_candidate_release`).  `acquireCall` is a
pure state transition: it initiates acquisition and returns at once,
without waiting for any network round trip. -/
def astep (a : Async) : AEvent → Option Async
  | .acquireCall =>
    match a.st with
    | .idle => some { a with st := AState.creating }
    | _ => none
  | .createOk =>
    match a.st with
    | .creating => some { a with st := AState.waiting, candidate_created := true }
    | _ => none
  | .retryErr =>
    match a.st with
    | .creating => some a
    | _ => none
  | .fatalErr =>
    match a.st with
    | .creating => some { a with st := AState.failed }
    | _ => none
  | .predDeleted =>
    match a.st with
    | .waiting => some a
    | _ => none
  | .noBlockingPred =>
    match a.st with
    | .waiting => some { a with st := AState.held, acquired := true }
    | _ => none
  | .timeout =>
    match a.st with
    | .waiting => some { a with st := AState.cancelling }
    | _ => none
  | .sessionExpiry =>
    match a.st with
    | .waiting => some { a with st := AState.creating, candidate_created := false }
    | _ => none
  | .releaseCall =>
    match a.st with
    | .held => some { a with st := AState.releasing }
    | .waiting => some { a with st := AState.cancelling }
    | _ => none
  | .revokeFire =>
    match a.st with
    | .held => some { a with revoked := true }
    | _ => none
  | .deleteOk =>
    match a.st with
    | .releasing =>
      some { a with st := AState.idle, acquired := false, candidate_created := false }
    | .cancelling =>
      some { a with st := AState.idle, acquired := false, candidate_created := false }
    | _ => none

/-- Run a list of events through the async state machine; fails if an event
is not accepted in the current state. -/
def runA (a : Async) : List AEvent → Option Async
  | [] => some a
  | e :: evts =>
    match astep a e with
    | none => none
    | some a' => runA a' evts

/-- One uncontended acquire/release cycle of the async lock: acquire is
called, the candidate is created, no blocking predecessor is found, release
is called and the candidate deletion completes. -/
def asyncCycle : List AEvent :=
  [AEvent.acquireCall, AEvent.createOk, AEvent.noBlockingPred,
   AEvent.releaseCall, AEvent.deleteOk]

/-- `n` consecutive acquire/release cycles. -/
def cycles : Nat → List AEvent
  | 0 => []
  | n + 1 => asyncCycle ++ cycles n

/-- Modelled from the spec: the per-object state of the missing synchronous
`ZkLock` of `zktools/locking.py` (spec §3 lock-instance state): the
`acquired` flag, the path (sequence number) of this attempt's candidate
node, and the `revoked` flag. -/
structure ZkLock where
  acquired : Bool
  candidate : Option Nat
  revoked : Bool
  deriving DecidableEq

/-- Modelled from the spec: `has_lock()` of the missing `zktools/locking.py`
is the predicate equal to `acquired` (spec §4.3). -/
def has_lock (l : ZkLock) : Bool := l.acquired

/-- Modelled from the spec: the local effect of a successful acquisition by
the missing `ZkLock` (spec §4.2 steps 2 and 5): the candidate is recorded
and `acquired` becomes true. -/
def acquireOk (l : ZkLock) (s : Nat) : ZkLock :=
  { l with acquired := true, candidate := some s }

/-- Modelled from the spec: `release()` of the missing `zktools/locking.py`
(spec §4.2 Release and §4.3): delete the candidate and clear `acquired` and
the candidate path, returning true if release completed and false when not
held. -/
def releaseOp (l : ZkLock) : Bool × ZkLock :=
  if l.candidate.isSome || l.acquired then
    (true, { l with acquired := false, candidate := none })
  else
    (false, l)

/-- A sequence of acquire/release pairs on one lock object, one pair per
listed sequence number. -/
def roundTrips (l : ZkLock) : List Nat → ZkLock
  | [] => l
  | s :: rest => roundTrips (releaseOp (acquireOk l s)).2 rest

-- ## Theorems

theorem maxBySeq_eq_none {l : List Cand} : maxBySeq l = none ↔ l = [] := by
  cases l with
  | nil => simp [maxBySeq]
  | cons c rest =>
    simp only [maxBySeq]
    cases h : maxBySeq rest with
    | none => simp
    | some b => by_cases hlt : b.seq < c.seq <;> simp [hlt]

theorem maxBySeq_mem {l : List Cand} {m : Cand} (h : maxBySeq l = some m) : m ∈ l := by
  induction l generalizing m with
  | nil => simp [maxBySeq] at h
  | cons c rest ih =>
    simp only [maxBySeq] at h
    cases hr : maxBySeq rest with
    | none =>
      rw [hr] at h
      simp at h
      simp [h]
    | some b =>
      rw [hr] at h
      by_cases hlt : b.seq < c.seq
      · simp [hlt] at h
        simp [h]
      · simp [hlt] at h
        exact List.mem_cons_of_mem c (h ▸ ih hr)

theorem maxBySeq_max {l : List Cand} {m : Cand} (h : maxBySeq l = some m) :
    ∀ x ∈ l, x.seq ≤ m.seq := by
  induction l generalizing m with
  | nil => simp
  | cons c rest ih =>
    intro x hx
    simp only [maxBySeq] at h
    cases hr : maxBySeq rest with
    | none =>
      rw [hr] at h
      simp at h
      rcases List.mem_cons.mp hx with hxc | hxr
      · subst hxc; simp [h]
      · exact absurd (maxBySeq_eq_none.mp hr ▸ hxr) (List.not_mem_nil x)
    | some b =>
      rw [hr] at h
      by_cases hlt : b.seq < c.seq
      · simp [hlt] at h
        rcases List.mem_cons.mp hx with hxc | hxr
        · subst hxc; exact Nat.le_of_eq (congrArg Cand.seq h)
        · exact h ▸ Nat.le_of_lt (Nat.lt_of_le_of_lt (ih hr x hxr) hlt)
      · simp [hlt] at h
        rcases List.mem_cons.mp hx with hxc | hxr
        · subst hxc
          exact h ▸ Nat.le_of_not_lt hlt
        · exact h ▸ ih hr x hxr

theorem mem_blockers {k : Kind} {n : Nat} {sibs : List Cand} {s : Cand} :
    s ∈ blockers k n sibs ↔ s ∈ sibs ∧ blocksKind k s.kind = true ∧ s.seq < n := by
  simp [blockers, List.mem_filter, and_assoc]

theorem blocking_predecessor_none {k : Kind} {n : Nat} {sibs : List Cand} :
    blocking_predecessor k n sibs = none ↔
      ∀ s ∈ sibs, blocksKind k s.kind = true → ¬ s.seq < n := by
  unfold blocking_predecessor
  rw [maxBySeq_eq_none]
  constructor
  · intro h s hs hb hlt
    have : s ∈ blockers k n sibs := mem_blockers.mpr ⟨hs, hb, hlt⟩
    rw [h] at this
    exact List.not_mem_nil s this
  · intro h
    cases hb : blockers k n sibs with
    | nil => rfl
    | cons c rest =>
      have hc : c ∈ blockers k n sibs := by rw [hb]; exact List.mem_cons_self c rest
      rcases mem_blockers.mp hc with ⟨hs, hbk, hlt⟩
      exact absurd hlt (h c hs hbk)

theorem blocking_predecessor_some {k : Kind} {n : Nat} {sibs : List Cand} {p : Cand}
    (h : blocking_predecessor k n sibs = some p) :
    p ∈ sibs ∧ blocksKind k p.kind = true ∧ p.seq < n ∧
      ∀ s ∈ sibs, blocksKind k s.kind = true → s.seq < n → s.seq ≤ p.seq := by
  unfold blocking_predecessor at h
  rcases mem_blockers.mp (maxBySeq_mem h) with ⟨hmem, hbk, hlt⟩
  refine ⟨hmem, hbk, hlt, ?_⟩
  intro s hs hbs hsn
  exact maxBySeq_max h s (mem_blockers.mpr ⟨hs, hbs, hsn⟩)

theorem run_reachable {σ σ' : LockState} {ops : List Op}
    (hσ : Reachable σ) (h : run σ ops = some σ') : Reachable σ' := by
  induction ops generalizing σ with
  | nil =>
    simp [run] at h
    exact h ▸ hσ
  | cons op ops ih =>
    simp only [run] at h
    cases hs : step σ op with
    | none => rw [hs] at h; exact absurd h (by simp)
    | some τ =>
      rw [hs] at h
      exact ih (Reachable.next hσ hs) h

theorem Inv_init : Inv initState := by
  refine ⟨?_, ?_, ?_, ?_⟩ <;> simp [SeqBound, SeqsNodup, CidsNodup, AcqSafe, initState]

/-- Composing a list map with a projection the map preserves pointwise. -/
theorem map_map_proj {β : Type} {l : List Cand} {f : Cand → Cand} (g : Cand → β)
    (hf : ∀ d ∈ l, g (f d) = g d) : (l.map f).map g = l.map g := by
  rw [List.map_map]
  exact List.map_congr_left hf

theorem Inv_sub (σ σ' : LockState) (hn : σ'.nextSeq = σ.nextSeq)
    (hsub : σ'.cands.Sublist σ.cands) (h : Inv σ) : Inv σ' := by
  obtain ⟨hb, hsn, hcn, ha⟩ := h
  refine ⟨?_, ?_, ?_, ?_⟩
  · intro c hc
    rw [hn]
    exact hb c (hsub.mem hc)
  · exact List.Nodup.sublist (hsub.map Cand.seq) hsn
  · exact List.Nodup.sublist (hsub.map Cand.cid) hcn
  · intro c hc hacq s hs
    exact ha c (hsub.mem hc) hacq s (hsub.mem hs)

theorem Inv_step {σ σ' : LockState} {op : Op} (h : Inv σ)
    (hs : step σ op = some σ') : Inv σ' := by
  obtain ⟨hb, hsn, hcn, ha⟩ := h
  cases op with
  | create cid k =>
    simp only [step] at hs
    by_cases hg : σ.cands.any (fun c => c.cid == cid)
    · rw [if_pos hg] at hs; exact absurd hs (by simp)
    · rw [if_neg hg] at hs
      have hσ' := (Option.some_inj.mp hs).symm
      subst hσ'
      have hcidnot : ∀ c ∈ σ.cands, c.cid ≠ cid := by
        intro c hc
        have := List.any_eq_false.mp (Bool.eq_false_iff.mpr hg) c hc
        simpa using this
      refine ⟨?_, ?_, ?_, ?_⟩
      · intro c hc
        simp only [List.mem_append, List.mem_singleton] at hc
        rcases hc with hc | hc
        · exact Nat.lt_succ_of_lt (hb c hc)
        · subst hc; exact Nat.lt_succ_self _
      · simp only [SeqsNodup, List.map_append, List.map_cons, List.map_nil]
        rw [List.nodup_append]
        refine ⟨hsn, List.nodup_singleton _, ?_⟩
        intro a hma hmb
        simp only [List.mem_singleton] at hmb
        rcases List.mem_map.mp hma with ⟨c, hc, hcs⟩
        subst hmb
        exact Nat.lt_irrefl _ (hcs ▸ hb c hc)
      · simp only [CidsNodup, List.map_append, List.map_cons, List.map_nil]
        rw [List.nodup_append]
        refine ⟨hcn, List.nodup_singleton _, ?_⟩
        intro a hma hmb
        simp only [List.mem_singleton] at hmb
        rcases List.mem_map.mp hma with ⟨c, hc, hcs⟩
        subst hmb
        exact hcidnot c hc hcs
      · intro c hc hacq s hsm hbl hlt
        simp only [List.mem_append, List.mem_singleton] at hc hsm
        rcases hc with hc | hc
        · rcases hsm with hsm | hsm
          · exact ha c hc hacq s hsm hbl hlt
          · subst hsm
            simp only at hlt
            exact Nat.lt_irrefl _ (Nat.lt_trans (hb c hc) hlt)
        · subst hc
          simp at hacq
  | tryAcquire cid =>
    simp only [step] at hs
    cases hf : σ.cands.find? (fun c => c.cid == cid) with
    | none => rw [hf] at hs; exact absurd hs (by simp)
    | some c0 =>
      simp only [hf] at hs
      by_cases hbp : blocking_predecessor c0.kind c0.seq σ.cands = none
      · rw [if_pos hbp] at hs
        have hσ' := (Option.some_inj.mp hs).symm
        subst hσ'
        set f : Cand → Cand := fun d =>
          if d.cid == cid then
            { d with acquired := true, revoked := d.revoked || σ.flag.isSome }
          else d with hfdef
        have hseq : ∀ d ∈ σ.cands, (f d).seq = d.seq := by
          intro d _; by_cases hd : d.cid = cid <;> simp [hfdef, hd]
        have hkind : ∀ d ∈ σ.cands, (f d).kind = d.kind := by
          intro d _; by_cases hd : d.cid = cid <;> simp [hfdef, hd]
        have hcid : ∀ d ∈ σ.cands, (f d).cid = d.cid := by
          intro d _; by_cases hd : d.cid = cid <;> simp [hfdef, hd]
        have hc0mem : c0 ∈ σ.cands := List.mem_of_find?_eq_some hf
        have hc0cid : c0.cid = cid := by
          have := List.find?_some hf
          simpa using this
        refine ⟨?_, ?_, ?_, ?_⟩
        · intro c hc
          rcases List.mem_map.mp hc with ⟨d, hd, hde⟩
          simp only
          rw [← hde, hseq d hd]
          exact hb d hd
        · simpa [SeqsNodup, map_map_proj Cand.seq hseq] using hsn
        · simpa [CidsNodup, map_map_proj Cand.cid hcid] using hcn
        · intro c hc hacq s hsm hbl hlt
          rcases List.mem_map.mp hc with ⟨d, hd, hde⟩
          rcases List.mem_map.mp hsm with ⟨e, he, hee⟩
          rw [← hde] at hacq hbl hlt
          rw [← hee] at hbl hlt
          rw [hkind d hd, hkind e he] at hbl
          rw [hseq e he, hseq d hd] at hlt
          by_cases hd0 : d.cid = cid
          · have hdc0 : d = c0 :=
              List.inj_on_of_nodup_map hcn hd hc0mem (by rw [hd0, hc0cid])
            subst hdc0
            exact blocking_predecessor_none.mp hbp e he hbl hlt
          · have : f d = d := by simp [hfdef, hd0]
            rw [this] at hacq
            exact ha d hd hacq e he hbl hlt
      · rw [if_neg hbp] at hs
        exact absurd hs (by simp)
  | release cid =>
    simp only [step] at hs
    by_cases hg : σ.cands.any (fun c => c.cid == cid)
    · rw [if_pos hg] at hs
      have hσ' := (Option.some_inj.mp hs).symm
      subst hσ'
      exact Inv_sub σ _ rfl (List.filter_sublist _) ⟨hb, hsn, hcn, ha⟩
    · rw [if_neg hg] at hs
      exact absurd hs (by simp)
  | revokeAll =>
    simp only [step, Option.some_inj] at hs
    subst hs
    exact ⟨hb, hsn, hcn, ha⟩
  | revokeImmediate cid =>
    simp only [step] at hs
    cases hf : σ.cands.find? (fun c => c.cid == cid) with
    | none => rw [hf] at hs; exact absurd hs (by simp)
    | some c0 =>
      simp only [hf, Option.some_inj] at hs
      subst hs
      exact Inv_sub σ _ rfl (List.filter_sublist _) ⟨hb, hsn, hcn, ha⟩
  | observeFlag cid =>
    simp only [step] at hs
    by_cases hg : (σ.flag.isSome && σ.cands.any (fun c => c.cid == cid)) = true
    · rw [if_pos hg, Option.some_inj] at hs
      subst hs
      set f : Cand → Cand := fun d =>
        if d.cid == cid then { d with revoked := true } else d with hfdef
      have hseq : ∀ d ∈ σ.cands, (f d).seq = d.seq := by
        intro d _; by_cases hd : d.cid = cid <;> simp [hfdef, hd]
      have hkind : ∀ d ∈ σ.cands, (f d).kind = d.kind := by
        intro d _; by_cases hd : d.cid = cid <;> simp [hfdef, hd]
      have hcid : ∀ d ∈ σ.cands, (f d).cid = d.cid := by
        intro d _; by_cases hd : d.cid = cid <;> simp [hfdef, hd]
      have hacqp : ∀ d ∈ σ.cands, (f d).acquired = d.acquired := by
        intro d _; by_cases hd : d.cid = cid <;> simp [hfdef, hd]
      refine ⟨?_, ?_, ?_, ?_⟩
      · intro c hc
        rcases List.mem_map.mp hc with ⟨d, hd, hde⟩
        simp only
        rw [← hde, hseq d hd]
        exact hb d hd
      · simpa [SeqsNodup, map_map_proj Cand.seq hseq] using hsn
      · simpa [CidsNodup, map_map_proj Cand.cid hcid] using hcn
      · intro c hc hacq s hsm hbl hlt
        rcases List.mem_map.mp hc with ⟨d, hd, hde⟩
        rcases List.mem_map.mp hsm with ⟨e, he, hee⟩
        rw [← hde] at hacq hbl hlt
        rw [← hee] at hbl hlt
        rw [hacqp d hd] at hacq
        rw [hkind d hd, hkind e he] at hbl
        rw [hseq e he, hseq d hd] at hlt
        exact ha d hd hacq e he hbl hlt
    · rw [if_neg hg] at hs
      exact absurd hs (by simp)

/-- Every reachable state satisfies the inductive invariant. -/
theorem reachable_inv {σ : LockState} (h : Reachable σ) : Inv σ := by
  induction h with
  | init => exact Inv_init
  | next _ hs ih => exact Inv_step ih hs

theorem blocksKind_of_isWrite {k s : Kind} (h : k.isWrite = true) :
    blocksKind k s = true := by
  cases k with
  | read => simp [Kind.isWrite] at h
  | write => rfl
  | excl => rfl

theorem blocksKind_read (k : Kind) : blocksKind Kind.read k = k.isWrite := rfl

/-- C1: in every reachable state of lock objects contending on one lock
name, at most one exclusive-lock or write-lock candidate has
`acquired = true`; if any write/exclusive candidate has `acquired = true`
then no read candidate has `acquired = true` (and conversely, by applying
the statement with the roles swapped); and a reachable state may hold
several acquired read candidates simultaneously. -/
theorem lock_mutual_exclusion :
    (∀ σ : LockState, Reachable σ → ∀ c ∈ σ.cands, ∀ d ∈ σ.cands,
      c.acquired = true → d.acquired = true →
        (c.kind.isWrite = true → d.kind.isWrite = true → c = d) ∧
        (c.kind.isWrite = true → d.kind = Kind.read → False)) ∧
    (∃ σ : LockState, Reachable σ ∧ ∃ c ∈ σ.cands, ∃ d ∈ σ.cands,
      c ≠ d ∧ c.kind = Kind.read ∧ d.kind = Kind.read ∧
      c.acquired = true ∧ d.acquired = true) := by
  constructor
  · intro σ hr c hc d hd hca hda
    obtain ⟨hb, hsn, hcn, ha⟩ := reachable_inv hr
    have hseqne : c ≠ d → c.seq ≠ d.seq := by
      intro hne hseq
      exact hne (List.inj_on_of_nodup_map hsn hc hd hseq)
    constructor
    · intro hcw hdw
      by_contra hne
      rcases Nat.lt_trichotomy c.seq d.seq with hlt | heq | hlt
      · exact ha d hd hda c hc (blocksKind_of_isWrite hdw) hlt
      · exact hseqne hne heq
      · exact ha c hc hca d hd (blocksKind_of_isWrite hcw) hlt
    · intro hcw hdr
      have hne : c ≠ d := by
        intro h
        rw [h, hdr] at hcw
        simp [Kind.isWrite] at hcw
      rcases Nat.lt_trichotomy c.seq d.seq with hlt | heq | hlt
      · refine ha d hd hda c hc ?_ hlt
        rw [hdr, blocksKind_read, hcw]
      · exact hseqne hne heq
      · exact ha c hc hca d hd (blocksKind_of_isWrite hcw) hlt
  · refine ⟨⟨[⟨0, Kind.read, 0, true, false⟩, ⟨1, Kind.read, 1, true, false⟩], 2, none⟩,
      run_reachable Reachable.init
        (by decide : run initState [Op.create 0 Kind.read, Op.tryAcquire 0,
          Op.create 1 Kind.read, Op.tryAcquire 1] =
            some ⟨[⟨0, Kind.read, 0, true, false⟩, ⟨1, Kind.read, 1, true, false⟩], 2, none⟩),
      ⟨0, Kind.read, 0, true, false⟩, by decide,
      ⟨1, Kind.read, 1, true, false⟩, by decide,
      by decide, rfl, rfl, rfl, rfl⟩

/-- Witness for C1: the safety statement applied in the concrete reachable
state where a single exclusive candidate has acquired the lock. -/
theorem lock_mutual_exclusion_witness :
    (⟨0, Kind.excl, 0, true, false⟩ : Cand) = ⟨0, Kind.excl, 0, true, false⟩ := by
  have hreach : Reachable ⟨[⟨0, Kind.excl, 0, true, false⟩], 1, none⟩ :=
    run_reachable Reachable.init
      (by decide : run initState [Op.create 0 Kind.excl, Op.tryAcquire 0] =
        some ⟨[⟨0, Kind.excl, 0, true, false⟩], 1, none⟩)
  exact (lock_mutual_exclusion.1 _ hreach _ (by decide) _ (by decide) rfl rfl).1 rfl rfl

theorem find?_cid_eq {σ : LockState} {c : Cand} {cid : Nat} (hcn : CidsNodup σ)
    (hc : c ∈ σ.cands) (hcid : c.cid = cid) :
    σ.cands.find? (fun d => d.cid == cid) = some c := by
  cases hf : σ.cands.find? (fun d => d.cid == cid) with
  | none =>
    have := List.find?_eq_none.mp hf c hc
    simp [hcid] at this
  | some c0 =>
    have hc0 : c0 ∈ σ.cands := List.mem_of_find?_eq_some hf
    have hc0cid : c0.cid = cid := by simpa using List.find?_some hf
    have : c0 = c := List.inj_on_of_nodup_map hcn hc0 hc (by rw [hc0cid, hcid])
    rw [this]

/-- C2: the blocking predecessor of a candidate: for an exclusive or write
candidate, the sibling with the highest sequence strictly below its own,
regardless of name kind; for a read candidate, the write/exclusive sibling
with the highest sequence strictly below its own; and a read candidate with
no such sibling acquires the lock immediately. -/
theorem blocking_predecessor_rule :
    (∀ (k : Kind) (n : Nat) (sibs : List Cand), k.isWrite = true →
      (∀ p, blocking_predecessor k n sibs = some p →
        p ∈ sibs ∧ p.seq < n ∧ ∀ s ∈ sibs, s.seq < n → s.seq ≤ p.seq) ∧
      (blocking_predecessor k n sibs = none ↔ ∀ s ∈ sibs, ¬ s.seq < n)) ∧
    (∀ (n : Nat) (sibs : List Cand),
      (∀ p, blocking_predecessor Kind.read n sibs = some p →
        p ∈ sibs ∧ p.kind.isWrite = true ∧ p.seq < n ∧
          ∀ s ∈ sibs, s.kind.isWrite = true → s.seq < n → s.seq ≤ p.seq) ∧
      (blocking_predecessor Kind.read n sibs = none ↔
        ∀ s ∈ sibs, s.kind.isWrite = true → ¬ s.seq < n)) ∧
    (∀ (σ : LockState) (cid : Nat) (c : Cand), CidsNodup σ → c ∈ σ.cands →
      c.cid = cid → c.kind = Kind.read →
      blocking_predecessor Kind.read c.seq σ.cands = none →
      ∃ σ', step σ (Op.tryAcquire cid) = some σ' ∧
        ∀ c' ∈ σ'.cands, c'.cid = cid → c'.acquired = true) := by
  refine ⟨?_, ?_, ?_⟩
  · intro k n sibs hw
    constructor
    · intro p hp
      obtain ⟨hm, _, hlt, hmax⟩ := blocking_predecessor_some hp
      exact ⟨hm, hlt, fun s hs hsn => hmax s hs (blocksKind_of_isWrite hw) hsn⟩
    · rw [blocking_predecessor_none]
      constructor
      · intro h s hs
        exact h s hs (blocksKind_of_isWrite hw)
      · intro h s hs _
        exact h s hs
  · intro n sibs
    constructor
    · intro p hp
      obtain ⟨hm, hbk, hlt, hmax⟩ := blocking_predecessor_some hp
      rw [blocksKind_read] at hbk
      refine ⟨hm, hbk, hlt, ?_⟩
      intro s hs hsw hsn
      exact hmax s hs (by rw [blocksKind_read, hsw]) hsn
    · rw [blocking_predecessor_none]
      constructor
      · intro h s hs hsw
        exact h s hs (by rw [blocksKind_read, hsw])
      · intro h s hs hsb
        rw [blocksKind_read] at hsb
        exact h s hs hsb
  · intro σ cid c hcn hc hcid hread hbp
    have hfind := find?_cid_eq hcn hc hcid
    have hbp' : blocking_predecessor c.kind c.seq σ.cands = none := by
      rw [hread]; exact hbp
    refine ⟨{ σ with cands := σ.cands.map (fun d =>
        if d.cid == cid then
          { d with acquired := true, revoked := d.revoked || σ.flag.isSome }
        else d) }, ?_, ?_⟩
    · simp only [step, hfind, hbp', if_pos]
    · intro c' hc' hcid'
      rcases List.mem_map.mp hc' with ⟨d, hd, hde⟩
      by_cases hdc : d.cid = cid
      · rw [← hde]
        simp [hdc]
      · rw [← hde] at hcid'
        simp [hdc] at hcid'

/-- Witness for C2: the three parts applied at concrete siblings and a
concrete state. -/
theorem blocking_predecessor_rule_witness :
    (0 : Nat) < 1 ∧
    blocking_predecessor Kind.read 1 [⟨5, Kind.read, 0, false, false⟩] = none ∧
    (∃ σ', step ⟨[⟨0, Kind.read, 0, false, false⟩], 1, none⟩ (Op.tryAcquire 0) = some σ' ∧
      ∀ c' ∈ σ'.cands, c'.cid = 0 → c'.acquired = true) := by
  refine ⟨?_, ?_, ?_⟩
  · exact ((blocking_predecessor_rule.1 Kind.excl 1 [⟨5, Kind.read, 0, false, false⟩] rfl).1
      ⟨5, Kind.read, 0, false, false⟩ (by decide)).2.1
  · exact (blocking_predecessor_rule.2.1 1 [⟨5, Kind.read, 0, false, false⟩]).2.mpr (by decide)
  · exact blocking_predecessor_rule.2.2 ⟨[⟨0, Kind.read, 0, false, false⟩], 1, none⟩ 0
      ⟨0, Kind.read, 0, false, false⟩ (by unfold CidsNodup; decide) (by decide) rfl rfl
      (by decide)

theorem acquireSync_ok (L : Nat → List Cand) (k : Kind) (n : Nat) :
    ∀ b t, ∃ r : Bool, acquireSync L k n t b = Except.ok r := by
  intro b
  induction b with
  | zero =>
    intro t
    by_cases h : blocking_predecessor k n (L t) = none
    · exact ⟨true, by simp only [acquireSync, if_pos h]⟩
    · exact ⟨false, by simp only [acquireSync, if_neg h]⟩
  | succ b ih =>
    intro t
    by_cases h : blocking_predecessor k n (L t) = none
    · exact ⟨true, by simp only [acquireSync, if_pos h]⟩
    · rcases ih (t + 1) with ⟨r, hr⟩
      exact ⟨r, by simp only [acquireSync, if_neg h]; exact hr⟩

theorem acquireSync_true_iff (L : Nat → List Cand) (k : Kind) (n : Nat) :
    ∀ b t, acquireSync L k n t b = Except.ok true ↔
      ∃ i, i ≤ b ∧ blocking_predecessor k n (L (t + i)) = none := by
  intro b
  induction b with
  | zero =>
    intro t
    constructor
    · intro hl
      by_cases h : blocking_predecessor k n (L t) = none
      · exact ⟨0, Nat.le_refl 0, by rw [Nat.add_zero]; exact h⟩
      · simp only [acquireSync, if_neg h] at hl
        exact absurd hl (by simp)
    · rintro ⟨i, hi, hbp⟩
      have hi0 : i = 0 := Nat.le_zero.mp hi
      subst hi0
      rw [Nat.add_zero] at hbp
      simp only [acquireSync, if_pos hbp]
  | succ b ih =>
    intro t
    by_cases h : blocking_predecessor k n (L t) = none
    · constructor
      · intro _
        exact ⟨0, Nat.zero_le _, by rw [Nat.add_zero]; exact h⟩
      · intro _
        simp only [acquireSync, if_pos h]
    · simp only [acquireSync, if_neg h]
      rw [ih (t + 1)]
      constructor
      · rintro ⟨i, hi, hbp⟩
        refine ⟨i + 1, Nat.succ_le_succ hi, ?_⟩
        have he : t + (i + 1) = t + 1 + i := by omega
        rw [he]
        exact hbp
      · rintro ⟨i, hi, hbp⟩
        cases i with
        | zero =>
          rw [Nat.add_zero] at hbp
          exact absurd hbp h
        | succ j =>
          refine ⟨j, Nat.le_of_succ_le_succ hi, ?_⟩
          have he : t + 1 + j = t + (j + 1) := by omega
          rw [he]
          exact hbp

/-- C3: `acquire(timeout=t)` on the synchronous lock only ever returns a
boolean - `.ok true` on acquisition, `.ok false` on timeout, never an
error - it returns true exactly when some wake-up within the budget finds
no blocking predecessor, and budget `0` (the `timeout=0` probe) succeeds
exactly when the lock is immediately acquirable and otherwise returns
false at once. -/
theorem acquire_timeout_contract :
    (∀ (L : Nat → List Cand) (k : Kind) (n t b : Nat),
      ∃ r : Bool, acquireSync L k n t b = Except.ok r) ∧
    (∀ (L : Nat → List Cand) (k : Kind) (n t b : Nat),
      acquireSync L k n t b = Except.ok true ↔
        ∃ i, i ≤ b ∧ blocking_predecessor k n (L (t + i)) = none) ∧
    (∀ (L : Nat → List Cand) (k : Kind) (n t : Nat),
      blocking_predecessor k n (L t) = none →
        acquireSync L k n t 0 = Except.ok true) ∧
    (∀ (L : Nat → List Cand) (k : Kind) (n t : Nat),
      blocking_predecessor k n (L t) ≠ none →
        acquireSync L k n t 0 = Except.ok false) := by
  refine ⟨?_, ?_, ?_, ?_⟩
  · intro L k n t b
    exact acquireSync_ok L k n b t
  · intro L k n t b
    exact acquireSync_true_iff L k n b t
  · intro L k n t h
    simp only [acquireSync, if_pos h]
  · intro L k n t h
    simp only [acquireSync, if_neg h]

/-- Witness for C3: the probe at budget 0 on a free lock and on a held
lock. -/
theorem acquire_timeout_contract_witness :
    acquireSync (fun _ => []) Kind.excl 0 0 0 = Except.ok true ∧
    acquireSync (fun _ => [⟨0, Kind.excl, 0, false, false⟩]) Kind.excl 1 0 0 =
      Except.ok false := by
  constructor
  · exact acquire_timeout_contract.2.2.1 (fun _ => []) Kind.excl 0 0 (by decide)
  · exact acquire_timeout_contract.2.2.2 (fun _ => [⟨0, Kind.excl, 0, false, false⟩])
      Kind.excl 1 0 (by decide)

/-- C4: gentle revocation: `revoke_all` writes the persistent gentle
revocation flag while leaving every candidate node in place; a holder whose
flag watch fires, or who acquires while the flag already exists, gets
`revoked = true`; and a requester blocked by an incumbent's candidate
cannot acquire until that candidate is gone - the gentle protocol never
releases the incumbent's lock on its behalf. -/
theorem gentle_revocation :
    (∀ σ σ' : LockState, step σ Op.revokeAll = some σ' →
      σ'.flag = some RevokeMode.gentle ∧ σ'.cands = σ.cands) ∧
    (∀ (σ σ' : LockState) (cid : Nat), step σ (Op.observeFlag cid) = some σ' →
      ∀ c' ∈ σ'.cands, c'.cid = cid → c'.revoked = true) ∧
    (∀ (σ σ' : LockState) (cid : Nat), step σ (Op.tryAcquire cid) = some σ' →
      σ.flag.isSome = true → ∀ c' ∈ σ'.cands, c'.cid = cid → c'.revoked = true) ∧
    (∀ (σ : LockState) (cid : Nat) (c s : Cand), CidsNodup σ → c ∈ σ.cands →
      c.cid = cid → s ∈ σ.cands → blocksKind c.kind s.kind = true →
      s.seq < c.seq → step σ (Op.tryAcquire cid) = none) := by
  refine ⟨?_, ?_, ?_, ?_⟩
  · intro σ σ' hs
    simp only [step, Option.some_inj] at hs
    subst hs
    exact ⟨rfl, rfl⟩
  · intro σ σ' cid hs c' hc' hcid'
    simp only [step] at hs
    by_cases hg : (σ.flag.isSome && σ.cands.any (fun c => c.cid == cid)) = true
    · rw [if_pos hg, Option.some_inj] at hs
      subst hs
      rcases List.mem_map.mp hc' with ⟨d, hd, hde⟩
      by_cases hdc : d.cid = cid
      · rw [← hde]
        simp [hdc]
      · rw [← hde] at hcid'
        simp [hdc] at hcid'
    · rw [if_neg hg] at hs
      exact absurd hs (by simp)
  · intro σ σ' cid hs hflag c' hc' hcid'
    simp only [step] at hs
    cases hf : σ.cands.find? (fun c => c.cid == cid) with
    | none => rw [hf] at hs; exact absurd hs (by simp)
    | some c0 =>
      simp only [hf] at hs
      by_cases hbp : blocking_predecessor c0.kind c0.seq σ.cands = none
      · rw [if_pos hbp, Option.some_inj] at hs
        subst hs
        rcases List.mem_map.mp hc' with ⟨d, hd, hde⟩
        by_cases hdc : d.cid = cid
        · rw [← hde]
          simp [hdc, hflag]
        · rw [← hde] at hcid'
          simp [hdc] at hcid'
      · rw [if_neg hbp] at hs
        exact absurd hs (by simp)
  · intro σ cid c s hcn hc hcid hsm hbl hlt
    have hfind := find?_cid_eq hcn hc hcid
    have hne : ¬ blocking_predecessor c.kind c.seq σ.cands = none := by
      intro hnone
      exact blocking_predecessor_none.mp hnone s hsm hbl hlt
    simp only [step, hfind, if_neg hne]

/-- Witness for C4: the four parts applied in a concrete state where a
reader holds the lock and a writer requests gentle revocation. -/
theorem gentle_revocation_witness :
    ((⟨[⟨0, Kind.read, 0, true, false⟩], 1, some RevokeMode.gentle⟩ : LockState).flag =
        some RevokeMode.gentle ∧
      (⟨[⟨0, Kind.read, 0, true, false⟩], 1, some RevokeMode.gentle⟩ : LockState).cands =
        (⟨[⟨0, Kind.read, 0, true, false⟩], 1, none⟩ : LockState).cands) ∧
    (⟨0, Kind.read, 0, true, true⟩ : Cand).revoked = true ∧
    step ⟨[⟨0, Kind.read, 0, true, false⟩, ⟨1, Kind.write, 1, false, false⟩], 2, none⟩
      (Op.tryAcquire 1) = none := by
  refine ⟨gentle_revocation.1 ⟨[⟨0, Kind.read, 0, true, false⟩], 1, none⟩ _ (by decide),
    ?_, ?_⟩
  · exact gentle_revocation.2.1 ⟨[⟨0, Kind.read, 0, true, false⟩], 1, some RevokeMode.gentle⟩
      ⟨[⟨0, Kind.read, 0, true, true⟩], 1, some RevokeMode.gentle⟩ 0 (by decide)
      ⟨0, Kind.read, 0, true, true⟩ (by decide) rfl
  · exact gentle_revocation.2.2.2
      ⟨[⟨0, Kind.read, 0, true, false⟩, ⟨1, Kind.write, 1, false, false⟩], 2, none⟩ 1
      ⟨1, Kind.write, 1, false, false⟩ ⟨0, Kind.read, 0, true, false⟩
      (by unfold CidsNodup; decide) (by decide) rfl (by decide) rfl (by decide)

/-- C5: with `revoke=IMMEDIATE`, the requester deletes each blocking
predecessor's candidate node directly; and a protocol step removes a
candidate node only when it is the owner's own release or such an
immediate revocation of a blocking predecessor - no other operation
deletes another lock object's candidate node. -/
theorem immediate_revocation_only_deleter :
    (∀ (σ σ' : LockState) (cid : Nat) (c : Cand),
      step σ (Op.revokeImmediate cid) = some σ' →
      σ.cands.find? (fun d => d.cid == cid) = some c →
      ∀ s ∈ σ.cands, blocksKind c.kind s.kind = true → s.seq < c.seq →
        s ∉ σ'.cands) ∧
    (∀ (σ σ' : LockState) (op : Op) (c : Cand),
      step σ op = some σ' → c ∈ σ.cands → c.node ∉ nodes σ' →
        op = Op.release c.cid ∨
        ∃ (rid : Nat) (r : Cand), op = Op.revokeImmediate rid ∧
          σ.cands.find? (fun d => d.cid == rid) = some r ∧
          blocksKind r.kind c.kind = true ∧ c.seq < r.seq) := by
  constructor
  · intro σ σ' cid c hs hfind s hsm hbl hlt
    simp only [step, hfind, Option.some_inj] at hs
    subst hs
    intro hmem
    have := (List.mem_filter.mp hmem).2
    simp [hbl, hlt] at this
  · intro σ σ' op c hs hc hnot
    cases op with
    | create cid0 k =>
      simp only [step] at hs
      by_cases hg : σ.cands.any (fun d => d.cid == cid0)
      · rw [if_pos hg] at hs
        exact absurd hs (by simp)
      · rw [if_neg hg, Option.some_inj] at hs
        subst hs
        refine absurd ?_ hnot
        simp only [nodes, List.map_append]
        exact List.mem_append_left _ (List.mem_map_of_mem Cand.node hc)
    | tryAcquire cid0 =>
      simp only [step] at hs
      cases hf : σ.cands.find? (fun d => d.cid == cid0) with
      | none => rw [hf] at hs; exact absurd hs (by simp)
      | some c0 =>
        simp only [hf] at hs
        by_cases hbp : blocking_predecessor c0.kind c0.seq σ.cands = none
        · rw [if_pos hbp, Option.some_inj] at hs
          subst hs
          refine absurd ?_ hnot
          simp only [nodes]
          rw [map_map_proj Cand.node ?_]
          · exact List.mem_map_of_mem Cand.node hc
          · intro d _
            by_cases hd : d.cid = cid0 <;> simp [Cand.node, hd]
        · rw [if_neg hbp] at hs
          exact absurd hs (by simp)
    | release cid0 =>
      simp only [step] at hs
      by_cases hg : σ.cands.any (fun d => d.cid == cid0)
      · rw [if_pos hg, Option.some_inj] at hs
        subst hs
        left
        have hcc : c.cid = cid0 := by
          by_contra hne
          refine hnot ?_
          simp only [nodes]
          refine List.mem_map_of_mem Cand.node (List.mem_filter.mpr ⟨hc, ?_⟩)
          simp [hne]
        rw [hcc]
      · rw [if_neg hg] at hs
        exact absurd hs (by simp)
    | revokeAll =>
      simp only [step, Option.some_inj] at hs
      subst hs
      exact absurd (List.mem_map_of_mem Cand.node hc) hnot
    | revokeImmediate rid =>
      simp only [step] at hs
      cases hf : σ.cands.find? (fun d => d.cid == rid) with
      | none => rw [hf] at hs; exact absurd hs (by simp)
      | some r =>
        simp only [hf, Option.some_inj] at hs
        subst hs
        right
        refine ⟨rid, r, rfl, hf, ?_⟩
        by_cases hbl : blocksKind r.kind c.kind = true
        · refine ⟨hbl, ?_⟩
          by_contra hnlt
          refine hnot ?_
          simp only [nodes]
          refine List.mem_map_of_mem Cand.node (List.mem_filter.mpr ⟨hc, ?_⟩)
          simp [hnlt]
        · refine absurd ?_ hnot
          simp only [nodes]
          refine List.mem_map_of_mem Cand.node (List.mem_filter.mpr ⟨hc, ?_⟩)
          simp [hbl]
    | observeFlag cid0 =>
      simp only [step] at hs
      by_cases hg : (σ.flag.isSome && σ.cands.any (fun d => d.cid == cid0)) = true
      · rw [if_pos hg, Option.some_inj] at hs
        subst hs
        refine absurd ?_ hnot
        simp only [nodes]
        rw [map_map_proj Cand.node ?_]
        · exact List.mem_map_of_mem Cand.node hc
        · intro d _
          by_cases hd : d.cid = cid0 <;> simp [Cand.node, hd]
      · rw [if_neg hg] at hs
        exact absurd hs (by simp)

/-- Witness for C5: in the state where a reader holds and a writer revokes
immediately, the reader's candidate is deleted, and the deletion is
attributed to the immediate revocation. -/
theorem immediate_revocation_only_deleter_witness :
    ((⟨0, Kind.read, 0, true, false⟩ : Cand) ∉
      (⟨[⟨1, Kind.write, 1, false, false⟩], 2, some RevokeMode.immediate⟩ :
        LockState).cands) ∧
    (Op.revokeImmediate 1 = Op.release (⟨0, Kind.read, 0, true, false⟩ : Cand).cid ∨
      ∃ (rid : Nat) (r : Cand), Op.revokeImmediate 1 = Op.revokeImmediate rid ∧
        (⟨[⟨0, Kind.read, 0, true, false⟩, ⟨1, Kind.write, 1, false, false⟩], 2, none⟩ :
          LockState).cands.find? (fun d => d.cid == rid) = some r ∧
        blocksKind r.kind (⟨0, Kind.read, 0, true, false⟩ : Cand).kind = true ∧
        (⟨0, Kind.read, 0, true, false⟩ : Cand).seq < r.seq) := by
  constructor
  · exact immediate_revocation_only_deleter.1
      ⟨[⟨0, Kind.read, 0, true, false⟩, ⟨1, Kind.write, 1, false, false⟩], 2, none⟩
      ⟨[⟨1, Kind.write, 1, false, false⟩], 2, some RevokeMode.immediate⟩ 1
      ⟨1, Kind.write, 1, false, false⟩ (by decide) (by decide)
      ⟨0, Kind.read, 0, true, false⟩ (by decide) rfl (by decide)
  · exact immediate_revocation_only_deleter.2
      ⟨[⟨0, Kind.read, 0, true, false⟩, ⟨1, Kind.write, 1, false, false⟩], 2, none⟩
      ⟨[⟨1, Kind.write, 1, false, false⟩], 2, some RevokeMode.immediate⟩
      (Op.revokeImmediate 1) ⟨0, Kind.read, 0, true, false⟩
      (by decide) (by decide) (by decide)

/-- C6: the async `acquire()` initiation is a pure state transition - it
returns at once rather than waiting on the network; in every reachable
shared state a contender blocked by a conflicting smaller-sequence
candidate has `acquired = false` while its candidate exists; on the
`ZkAsyncLock` machine the contender's waiting state has
`candidate_created = true` and `acquired = false`, and the predecessor's
deletion moves it to `acquired = true`; and the concrete holder/contender
trace shows the contender acquiring right after the holder releases. -/
theorem async_candidate_visibility :
    (∀ a : Async, a.st = AState.idle →
      astep a AEvent.acquireCall = some { a with st := AState.creating }) ∧
    (∀ σ : LockState, Reachable σ → ∀ c ∈ σ.cands, ∀ h ∈ σ.cands,
      blocksKind c.kind h.kind = true → h.seq < c.seq → c.acquired = false) ∧
    (runA asyncInit [AEvent.acquireCall, AEvent.createOk] =
        some ⟨AState.waiting, true, false, false⟩ ∧
      runA ⟨AState.waiting, true, false, false⟩
          [AEvent.predDeleted, AEvent.noBlockingPred] =
        some ⟨AState.held, true, true, false⟩) ∧
    (run initState [Op.create 0 Kind.excl, Op.tryAcquire 0, Op.create 1 Kind.excl] =
        some ⟨[⟨0, Kind.excl, 0, true, false⟩, ⟨1, Kind.excl, 1, false, false⟩], 2, none⟩ ∧
      step ⟨[⟨0, Kind.excl, 0, true, false⟩, ⟨1, Kind.excl, 1, false, false⟩], 2, none⟩
        (Op.tryAcquire 1) = none ∧
      run ⟨[⟨0, Kind.excl, 0, true, false⟩, ⟨1, Kind.excl, 1, false, false⟩], 2, none⟩
          [Op.release 0, Op.tryAcquire 1] =
        some ⟨[⟨1, Kind.excl, 1, true, false⟩], 2, none⟩) := by
  refine ⟨?_, ?_, ⟨by decide, by decide⟩, by decide, by decide, by decide⟩
  · intro a hst
    simp only [astep, hst]
  · intro σ hr c hc h hm hbl hlt
    obtain ⟨_, _, _, ha⟩ := reachable_inv hr
    cases hca : c.acquired with
    | false => rfl
    | true => exact absurd hlt (ha c hc hca h hm hbl)

/-- Witness for C6: the pure `acquire()` transition from the idle machine,
and the blocked contender of the concrete reachable two-candidate state. -/
theorem async_candidate_visibility_witness :
    astep asyncInit AEvent.acquireCall =
      some ⟨AState.creating, false, false, false⟩ ∧
    (⟨1, Kind.excl, 1, false, false⟩ : Cand).acquired = false := by
  constructor
  · exact async_candidate_visibility.1 asyncInit rfl
  · exact async_candidate_visibility.2.1
      ⟨[⟨0, Kind.excl, 0, true, false⟩, ⟨1, Kind.excl, 1, false, false⟩], 2, none⟩
      (run_reachable Reachable.init
        (by decide : run initState
          [Op.create 0 Kind.excl, Op.tryAcquire 0, Op.create 1 Kind.excl] =
          some ⟨[⟨0, Kind.excl, 0, true, false⟩, ⟨1, Kind.excl, 1, false, false⟩],
            2, none⟩))
      ⟨1, Kind.excl, 1, false, false⟩ (by decide) ⟨0, Kind.excl, 0, true, false⟩
      (by decide) rfl (by decide)

theorem runA_append (l₁ l₂ : List AEvent) :
    ∀ a : Async, runA a (l₁ ++ l₂) = (runA a l₁).bind (fun b => runA b l₂) := by
  induction l₁ with
  | nil => intro a; simp [runA]
  | cons e l₁ ih =>
    intro a
    simp only [List.cons_append, runA]
    cases hs : astep a e with
    | none => simp
    | some a' => simp [ih a']

theorem runA_cycles : ∀ n : Nat, runA asyncInit (cycles n) = some asyncInit := by
  intro n
  induction n with
  | zero => rfl
  | succ n ih =>
    have h1 : runA asyncInit asyncCycle = some asyncInit := by decide
    simp only [cycles]
    rw [runA_append asyncCycle (cycles n) asyncInit, h1]
    simpa using ih

theorem roundTrips_acquired_false :
    ∀ (ss : List Nat) (l : ZkLock), ss ≠ [] → (roundTrips l ss).acquired = false := by
  intro ss
  induction ss with
  | nil => intro l h; exact absurd rfl h
  | cons s rest ih =>
    intro l _
    simp only [roundTrips]
    cases rest with
    | nil => simp [roundTrips, releaseOp, acquireOk]
    | cons s2 rest2 => exact ih _ (by simp)

/-- C8: round trip: after each release of an acquire/release pair the
`acquired` attribute is false again - the async machine returns exactly to
its initial non-acquired state after every cycle, and on the synchronous
lock object every release clears `acquired` (and `has_lock`), reporting
success. -/
theorem acquire_release_round_trip :
    (∀ n : Nat, runA asyncInit (cycles n) = some asyncInit) ∧
    asyncInit.acquired = false ∧
    (∀ (l : ZkLock) (s : Nat),
      (releaseOp (acquireOk l s)).2.acquired = false ∧
      has_lock (releaseOp (acquireOk l s)).2 = false ∧
      (releaseOp (acquireOk l s)).1 = true) ∧
    (∀ (l : ZkLock) (ss : List Nat), ss ≠ [] →
      (roundTrips l ss).acquired = false) := by
  refine ⟨runA_cycles, rfl, ?_, fun l ss hne => roundTrips_acquired_false ss l hne⟩
  intro l s
  refine ⟨?_, ?_, ?_⟩ <;> simp [releaseOp, acquireOk, has_lock]

/-- Witness for C8: one concrete lock object after a single
acquire/release pair. -/
theorem acquire_release_round_trip_witness :
    (roundTrips ⟨false, none, false⟩ [7]).acquired = false :=
  acquire_release_round_trip.2.2.2 ⟨false, none, false⟩ [7] (by decide)

theorem runA_cancel_acquired_false :
    ∀ (evts : List AEvent) (a b : Async),
      (a.st = AState.cancelling ∨ a.st = AState.idle) → a.acquired = false →
      AEvent.acquireCall ∉ evts → runA a evts = some b → b.acquired = false := by
  intro evts
  induction evts with
  | nil =>
    intro a b _ hacq _ hrun
    simp only [runA, Option.some_inj] at hrun
    exact hrun ▸ hacq
  | cons e evts ih =>
    intro a b hst hacq hmem hrun
    have hmem' : AEvent.acquireCall ∉ evts := fun h => hmem (List.mem_cons_of_mem e h)
    have hne : e ≠ AEvent.acquireCall := fun h => hmem (h ▸ List.mem_cons_self e evts)
    simp only [runA] at hrun
    cases hs : astep a e with
    | none => rw [hs] at hrun; exact absurd hrun (by simp)
    | some a' =>
      rw [hs] at hrun
      rcases hst with hst | hst
      · cases e
        case deleteOk =>
          simp only [astep, hst, Option.some_inj] at hs
          subst hs
          exact ih _ b (Or.inr rfl) rfl hmem' hrun
        all_goals simp [astep, hst] at hs
      · cases e
        case acquireCall => exact absurd rfl hne
        all_goals simp [astep, hst] at hs

/-- C10: calling `release()` while an async acquisition is still pending
(candidate created, not acquired) cancels the attempt: the machine moves to
cancelling keeping `acquired = false`, the candidate node is removed when
the deletion completes, `acquired` never becomes true for that attempt
(absent a fresh `acquire()` call), and in the shared-state trace a
later-queued contender still acquires once the real holder releases. -/
theorem async_release_pending_cancels :
    (∀ a b : Async, a.st = AState.waiting → a.acquired = false →
      astep a AEvent.releaseCall = some b →
        b.st = AState.cancelling ∧ b.acquired = false ∧
        b.candidate_created = a.candidate_created) ∧
    (∀ a b : Async, a.st = AState.cancelling → astep a AEvent.deleteOk = some b →
      b.st = AState.idle ∧ b.candidate_created = false ∧ b.acquired = false) ∧
    (∀ (evts : List AEvent) (a b : Async),
      a.st = AState.cancelling → a.acquired = false → AEvent.acquireCall ∉ evts →
      runA a evts = some b → b.acquired = false) ∧
    run initState [Op.create 0 Kind.excl, Op.tryAcquire 0, Op.create 1 Kind.excl,
        Op.create 2 Kind.excl, Op.release 1, Op.release 0, Op.tryAcquire 2] =
      some ⟨[⟨2, Kind.excl, 2, true, false⟩], 3, none⟩ := by
  refine ⟨?_, ?_, ?_, by decide⟩
  · intro a b hst hacq hs
    simp only [astep, hst, Option.some_inj] at hs
    subst hs
    exact ⟨rfl, hacq, rfl⟩
  · intro a b hst hs
    simp only [astep, hst, Option.some_inj] at hs
    subst hs
    exact ⟨rfl, rfl, rfl⟩
  · intro evts a b hst hacq hmem hrun
    exact runA_cancel_acquired_false evts a b (Or.inl hst) hacq hmem hrun

/-- Witness for C10: a pending attempt (waiting, candidate created, not
acquired) is released: it cancels, deletes its candidate and never shows
`acquired = true`. -/
theorem async_release_pending_cancels_witness :
    ((⟨AState.cancelling, true, false, false⟩ : Async).st = AState.cancelling ∧
      (⟨AState.cancelling, true, false, false⟩ : Async).acquired = false ∧
      (⟨AState.cancelling, true, false, false⟩ : Async).candidate_created =
        (⟨AState.waiting, true, false, false⟩ : Async).candidate_created) ∧
    ((⟨AState.idle, false, false, false⟩ : Async).st = AState.idle ∧
      (⟨AState.idle, false, false, false⟩ : Async).candidate_created = false ∧
      (⟨AState.idle, false, false, false⟩ : Async).acquired = false) ∧
    (⟨AState.idle, false, false, false⟩ : Async).acquired = false := by
  refine ⟨?_, ?_, ?_⟩
  · exact async_release_pending_cancels.1 ⟨AState.waiting, true, false, false⟩
      ⟨AState.cancelling, true, false, false⟩ rfl rfl (by decide)
  · exact async_release_pending_cancels.2.1 ⟨AState.cancelling, true, false, false⟩
      ⟨AState.idle, false, false, false⟩ rfl (by decide)
  · exact async_release_pending_cancels.2.2.1 [AEvent.deleteOk]
      ⟨AState.cancelling, true, false, false⟩ ⟨AState.idle, false, false, false⟩ rfl rfl
      (by decide) (by decide)

/-- C7: `retryable(err)` returns true exactly for connection-loss,
operation-timeout and session-moved; in particular
`retryable(CONNECTION_LOSS) = true`. -/
theorem retryable_characterization :
    (∀ e : ZkErr, retryable e = true ↔
      e = ZkErr.connectionLoss ∨ e = ZkErr.operationTimeout ∨ e = ZkErr.sessionMoved) ∧
    retryable ZkErr.connectionLoss = true := by
  constructor
  · intro e
    cases e <;> simp [retryable]
  · rfl


end Zktools
